import Mathlib

/-!
# Conditional workflow engine: data model, branch evaluator, run coordinator

A verification development for the conditional-workflow execution model of the
repository.  The repository ships a notebook (`workflow.py` / `funcs.py`, the
"Running a conditional workflow" tutorial) that defines a concrete pipeline
A → \x7bB if A.output > 5, C otherwise\x7d and runs it twice; the orchestration
engine itself (workflow definition, conditional branch evaluator, run
coordinator) lives in external codebases and is therefore modelled here from
the repository's design specification, while the concrete workflow, its three
functions and the recorded run results are translated from the notebook.
-/

namespace Workflow

/-- The decimal digit character for `n < 10`. -/
def digitChar (n : Nat) : Char := Char.ofNat (48 + n)

/-- Decimal digits of `n`, most significant first (fuelled so that it reduces
by computation; `fuel = n + 1` always suffices). -/
def natDigits (fuel n : Nat) : List Char :=
  match fuel with
  | 0 => []
  | f + 1 =>
    if n < 10 then [digitChar n] else natDigits f (n / 10) ++ [digitChar (n % 10)]

/-- Decimal rendering of a natural number. -/
def natToStr (n : Nat) : String := ⟨natDigits (n + 1) n⟩

/-- Decimal rendering of an integer — the model of Python `str` on an `int`
as used by `workflow.py`'s `str(input_val)`. -/
def intToStr : Int → String
  | .ofNat n => natToStr n
  | .negSucc m => ⟨'-' :: natDigits (m + 2) (m + 1)⟩

/-- The numeric value of a decimal digit character. -/
def digit? (c : Char) : Option Nat :=
  if 48 ≤ c.toNat ∧ c.toNat ≤ 57 then some (c.toNat - 48) else none

/-- Parse a non-empty all-digit character list as a natural number. -/
def parseNatList : List Char → Option Nat
  | [] => none
  | cs =>
    cs.foldl (fun acc c => acc.bind (fun a => (digit? c).map (fun d => 10 * a + d)))
      (some 0)

/-- Parse a decimal integer — the model of Python `int` on a string as used by
`funcs.py`'s `int(input_value)`. -/
def strToInt (s : String) : Option Int :=
  match s.data with
  | '-' :: rest => (parseNatList rest).map (fun n => -(n : Int))
  | cs => (parseNatList cs).map (fun n => (n : Int))

/-- Runtime values flowing between steps: the notebook's functions produce an
integer (`func_A` returns `int(input_value)`) or a string (`func_B`/`func_C`
return message strings). -/
inductive Value where
  | int (n : Int)
  | str (s : String)
deriving DecidableEq, Repr

/-- Python `str(...)` as used by `workflow.py` on the workflow argument. -/
def valueToStr : Value → String
  | .int n => intToStr n
  | .str s => s

/-- Modelled from the spec: a condition's predicate over the compared numeric
output (`output > threshold` and friends); the engine holding first-class
predicate objects is not part of the repository, so predicates are embedded
as the comparison shapes the notebook's `dsl.Condition` calls use. -/
inductive Pred where
  | gt (t : Int)
  | ge (t : Int)
  | lt (t : Int)
  | le (t : Int)
  | eq (t : Int)
deriving DecidableEq, Repr

/-- Evaluate a predicate on an integer. -/
def Pred.evalInt : Pred → Int → Bool
  | .gt t, v => t < v
  | .ge t, v => t ≤ v
  | .lt t, v => v < t
  | .le t, v => v ≤ t
  | .eq t, v => v = t

/-- Evaluate a predicate on a runtime value; the comparisons are numeric, so a
non-numeric value satisfies none of them. -/
def Pred.eval : Pred → Value → Bool
  | p, .int n => p.evalInt n
  | _, .str _ => false

/-- Modelled from the spec: where a step input comes from (the engine's input
binding is not in the repository).  A step input is bound to a run argument,
to a run argument converted by `str(...)` (the notebook passes
`params={"input_value": str(input_val)}`), or to a named output of an
upstream step. -/
inductive InputSource where
  | runArg (key : String)
  | runArgStr (key : String)
  | stepOutput (step : String) (out : String)
deriving DecidableEq, Repr

/-- Modelled from the spec: a Step of the workflow definition — unique name,
named input parameters, declared output names, upstream dependencies.  The
engine's step type is not in the repository. -/
structure Step where
  name : String
  inputs : List (String × InputSource)
  outputs : List String
  deps : List String
deriving DecidableEq, Repr

/-- Modelled from the spec: a Condition guards a branch — it reads the named
output of its source step, applies a predicate, and gates a set of steps.
The engine's condition type is not in the repository. -/
structure Condition where
  sourceStep : String
  outputName : String
  pred : Pred
  gatedSteps : List String
deriving DecidableEq, Repr

/-- Modelled from the spec: a declarative workflow definition — the DAG of
steps plus the conditions gating branches. -/
structure WorkflowDef where
  steps : List Step
  conditions : List Condition
deriving DecidableEq, Repr

/-- Modelled from the spec: the error taxonomy of the engine
(compile-time errors and the run-time `NoBranchSelectedError`). -/
inductive WorkflowError where
  | duplicateStepName (n : String)
  | unknownStepReference (n : String)
  | cycleDetected
  | unresolvedInput (step : String) (input : String)
  | noBranchSelected
deriving DecidableEq, Repr

/-- Per-step state machine of the spec:
`pending → eligible → running → (succeeded | failed)` with the extra terminal
`skipped`. -/
inductive StepStatus where
  | pending
  | eligible
  | running
  | succeeded
  | failed
  | skipped
deriving DecidableEq, Repr

/-- The terminal statuses a dependency must reach before a dependent may be
scheduled. -/
def StepStatus.isDoneOk : StepStatus → Bool
  | .succeeded => true
  | .skipped => true
  | _ => false

/-- Look a step up by name. -/
def stepNamed (steps : List Step) (n : String) : Option Step :=
  steps.find? (fun s => s.name = n)

/-- Whether a condition's predicate holds on the named output value inside a
step result (`outs` maps output names to values). -/
def condHolds (outs : List (String × Value)) (c : Condition) : Bool :=
  match outs.lookup c.outputName with
  | some v => c.pred.eval v
  | none => false

/-- Modelled from the spec: the Conditional Branch Evaluator's selection —
evaluate each condition's predicate against the named output value in
declaration order and return the first that holds.  The evaluator is not in
the repository. -/
def selectBranch (outs : List (String × Value)) (conds : List Condition) :
    Option Condition :=
  conds.find? (fun c => condHolds outs c)

/-- Modelled from the spec: the branch evaluator surfaces
`NoBranchSelectedError` when no condition holds, instead of silently skipping
all branches. -/
def evalBranchPoint (outs : List (String × Value)) (conds : List Condition) :
    Except WorkflowError Condition :=
  match selectBranch outs conds with
  | some c => .ok c
  | none => .error .noBranchSelected

/-- A step is removable in Kahn's elimination when none of its dependencies
names a still-remaining step. -/
def removable (remaining : List Step) (s : Step) : Bool :=
  s.deps.all (fun d => (remaining.find? (fun t => t.name = d)).isNone)

/-- Modelled from the spec: the acyclicity validation of `compile` (the
engine's validator is not in the repository) — repeatedly remove steps whose
dependencies are all satisfied; the definition is acyclic exactly when every
step gets removed, and the removal order is the topological schedule. -/
def kahnAux (fuel : Nat) (remaining : List Step) : Option (List String) :=
  if remaining.isEmpty then some []
  else
    match fuel with
    | 0 => none
    | n + 1 =>
      let rm := remaining.filter (fun s => removable remaining s)
      let rest := remaining.filter (fun s => !removable remaining s)
      if rm.isEmpty then none
      else (kahnAux n rest).map (fun tail => rm.map Step.name ++ tail)

/-- Topological order of the steps, when one exists. -/
def topoOrder (steps : List Step) : Option (List String) :=
  kahnAux steps.length steps

/-- Whether one input binding of step `s` is satisfiable: run arguments are
supplied at run time, and a step-output binding must name a declared output of
a declared upstream dependency. -/
def inputOk (steps : List Step) (s : Step) : InputSource → Bool
  | .runArg _ => true
  | .runArgStr _ => true
  | .stepOutput st out =>
    decide (st ∈ s.deps) &&
      (match stepNamed steps st with
       | some t => decide (out ∈ t.outputs)
       | none => false)

/-- First unsatisfiable input of the definition, as (step name, input name). -/
def firstBadInput (steps : List Step) : Option (String × String) :=
  steps.findSome? fun s =>
    s.inputs.findSome? fun pi =>
      if inputOk steps s pi.2 then none else some (s.name, pi.1)

/-- Modelled from the spec: the immutable compiled graph returned by
`compile` — the validated steps and conditions plus a topological schedule. -/
structure CompiledGraph where
  steps : List Step
  conditions : List Condition
  order : List String
deriving DecidableEq, Repr

/-- Modelled from the spec: `addStep` registers a step and fails with
`DuplicateStepNameError` on a name collision (the engine is not in the
repository). -/
def addStep (wf : WorkflowDef) (s : Step) : Except WorkflowError WorkflowDef :=
  if (stepNamed wf.steps s.name).isSome then .error (.duplicateStepName s.name)
  else .ok ⟨wf.steps ++ [s], wf.conditions⟩

/-- Modelled from the spec: `addCondition` associates a predicate with gated
steps and fails with `UnknownStepReferenceError` if the source step or a gated
step is undeclared (the engine is not in the repository). -/
def addCondition (wf : WorkflowDef) (c : Condition) :
    Except WorkflowError WorkflowDef :=
  match (c.sourceStep :: c.gatedSteps).find?
      (fun n => (stepNamed wf.steps n).isNone) with
  | some n => .error (.unknownStepReference n)
  | none => .ok ⟨wf.steps, wf.conditions ++ [c]⟩

/-- Modelled from the spec: `compile` validates that the graph is acyclic
(`CycleDetectedError` otherwise) and that every step input is satisfiable from
a run argument or an upstream output (`UnresolvedInputError` otherwise), and
returns the immutable compiled graph.  The engine's compiler is not in the
repository. -/
def compile (wf : WorkflowDef) : Except WorkflowError CompiledGraph :=
  match topoOrder wf.steps with
  | none => .error .cycleDetected
  | some ord =>
    match firstBadInput wf.steps with
    | some bad => .error (.unresolvedInput bad.1 bad.2)
    | none => .ok ⟨wf.steps, wf.conditions, ord⟩

/-- The external step executor interface of the spec: `submit(step,
resolvedInputs) -> StepResult | Failure`, keyed here by step name. -/
def Exec : Type :=
  String → List (String × Value) → Except Unit (List (String × Value))

/-- Accumulated run state of the deterministic coordinator: recorded per-step
statuses (absent means still pending), written step results, whether the run
has failed, and the surfaced run-time error if any. -/
structure RunAcc where
  statuses : List (String × StepStatus)
  results : List (String × List (String × Value))
  failed : Bool
  err : Option WorkflowError
deriving DecidableEq, Repr

/-- Status of a step in the accumulated state (default `pending`). -/
def RunAcc.statusOf (acc : RunAcc) (n : String) : StepStatus :=
  (acc.statuses.lookup n).getD .pending

/-- Record a new status for a step. -/
def RunAcc.setStatus (acc : RunAcc) (n : String) (st : StepStatus) : RunAcc :=
  { acc with statuses := (n, st) :: acc.statuses }

/-- Record the step result written by a completed step. -/
def RunAcc.setResult (acc : RunAcc) (n : String) (outs : List (String × Value)) :
    RunAcc :=
  { acc with results := (n, outs) :: acc.results }

/-- Mark one step skipped if it is still pending (`pending → skipped` is the
only edge into `skipped`). -/
def skipOne (acc : RunAcc) (d : String) : RunAcc :=
  if acc.statusOf d = .pending then acc.setStatus d .skipped else acc

/-- Mark every step of the list skipped (when still pending). -/
def markSkipped (acc : RunAcc) (ds : List String) : RunAcc :=
  ds.foldl skipOne acc

/-- The branch point guarded by step `n`: the conditions keyed to `n`'s step
result, in declaration order. -/
def branchGroup (conds : List Condition) (n : String) : List Condition :=
  conds.filter (fun c => c.sourceStep = n)

/-- The gated steps of the non-selected sibling conditions, excluding any step
the selected condition also gates. -/
def skippedSiblings (group : List Condition) (c : Condition) : List String :=
  ((group.filter (fun c2 => c2 ≠ c)).flatMap Condition.gatedSteps).filter
    (fun d => !(decide (d ∈ c.gatedSteps)))

/-- Modelled from the spec: the branch evaluation performed right after a
guarding step completes — the conditions keyed to the completed step's result
are evaluated in declaration order; the first that holds activates its gated
steps and every gated step of the other sibling conditions is marked skipped;
if none holds the run fails with `NoBranchSelectedError`.  The evaluator is
not in the repository. -/
def afterSuccess (conds : List Condition) (acc : RunAcc) (n : String)
    (outs : List (String × Value)) : RunAcc :=
  if (branchGroup conds n).isEmpty then acc
  else
    match evalBranchPoint outs (branchGroup conds n) with
    | .error e => { acc with failed := true, err := some e }
    | .ok c => markSkipped acc (skippedSiblings (branchGroup conds n) c)

/-- Resolve one input binding against the run arguments and the written step
results. -/
def resolveInput (acc : RunAcc) (args : List (String × Value)) :
    InputSource → Option Value
  | .runArg k => args.lookup k
  | .runArgStr k => (args.lookup k).map (fun v => .str (valueToStr v))
  | .stepOutput s o => (acc.results.lookup s).bind (fun outs => outs.lookup o)

/-- Resolve all input bindings of a step; fails if any single one fails. -/
def resolveInputs (acc : RunAcc) (args : List (String × Value)) :
    List (String × InputSource) → Option (List (String × Value))
  | [] => some []
  | pi :: rest =>
    match resolveInput acc args pi.2, resolveInputs acc args rest with
    | some v, some vs => some ((pi.1, v) :: vs)
    | _, _ => none

/-- Modelled from the spec: processing of one scheduled step by the Run
Coordinator (the coordinator is not in the repository).  A step already marked
skipped stays skipped; after a failure not-yet-started steps are not
scheduled; a step with a skipped dependency is skipped transitively; a step
whose dependencies all succeeded has its inputs resolved and is submitted to
the executor, recording `succeeded` with its result (then evaluating any
branch point it guards) or `failed` (failing the run). -/
def processOne (conds : List Condition) (steps : List Step) (ex : Exec)
    (args : List (String × Value)) (acc : RunAcc) (n : String) : RunAcc :=
  if acc.failed then acc
  else
    match acc.statusOf n with
    | .pending =>
      match stepNamed steps n with
      | none => acc
      | some s =>
        if s.deps.any (fun d => acc.statusOf d = .skipped) then
          acc.setStatus n .skipped
        else if s.deps.all (fun d => acc.statusOf d = .succeeded) then
          match resolveInputs acc args s.inputs with
          | none =>
            { acc with failed := true,
                       err := some (.unresolvedInput s.name "") }
          | some ins =>
            match ex n ins with
            | .ok outs =>
              afterSuccess conds ((acc.setStatus n .succeeded).setResult n outs)
                n outs
            | .error _ => { acc.setStatus n .failed with failed := true }
        else acc
    | _ => acc

/-- Overall status of a finished run. -/
inductive RunStatus where
  | succeeded
  | failed
deriving DecidableEq, Repr

/-- Modelled from the spec: the Run report — final status, per-step status,
the named outputs of each completed step, and the surfaced error if any. -/
structure RunReport where
  stepStatus : List (String × StepStatus)
  outputs : List (String × List (String × Value))
  status : RunStatus
  err : Option WorkflowError
deriving DecidableEq, Repr

/-- Modelled from the spec: `run(compiledGraph, arguments)` — schedule the
steps in topological order, propagate outputs into dependents' inputs, and
aggregate the final run report.  The Run Coordinator is not in the
repository. -/
def runWorkflow (g : CompiledGraph) (ex : Exec) (args : List (String × Value)) :
    RunReport :=
  let final := g.order.foldl (processOne g.conditions g.steps ex args)
    ⟨[], [], false, none⟩
  { stepStatus := g.order.map (fun n => (n, final.statusOf n))
    outputs := final.results
    status := if final.failed then .failed else .succeeded
    err := final.err }

/-- Status of a step in the final report (default `pending`). -/
def RunReport.statusOf (r : RunReport) (n : String) : StepStatus :=
  (r.stepStatus.lookup n).getD .pending

/-- Named output of a step in the final report. -/
def RunReport.outputOf (r : RunReport) (n o : String) : Option Value :=
  (r.outputs.lookup n).bind (fun outs => outs.lookup o)

/-! ## The notebook's concrete conditional workflow

Translated from the repository's conditional-workflow notebook
(`funcs.py` and `workflow.py`). -/

/-- `func_A` from `funcs.py`: logs and returns `int(input_value)` — the
Python `int(...)` of the parameter, which is the identity on an integer and
integer parsing on a string. -/
def func_A (input_value : Value) : Option Int :=
  match input_value with
  | .int n => some n
  | .str s => strToInt s

/-- `func_B` from `funcs.py`: returns the message string. -/
def func_B : Value :=
  .str "Function B has been triggered"

/-- `func_C` from `funcs.py`: returns the message string. -/
def func_C : Value :=
  .str "Function C has been triggered"

/-- The executor of the notebook's project: `func-A` takes `input_value` and
returns it parsed as `first_func_res`; `func-B`/`func-C` take no inputs and
return their message as `second_func_res`. -/
def notebookExec : Exec := fun n ins =>
  if n = "func-a" then
    match ins.lookup "input_value" with
    | some v =>
      match func_A v with
      | some k => .ok [("first_func_res", .int k)]
      | none => .error ()
    | none => .error ()
  else if n = "func-b" then .ok [("second_func_res", func_B)]
  else if n = "func-c" then .ok [("second_func_res", func_C)]
  else .error ()

/-- Step `func-a` of `workflow.py`: run with
`params={"input_value": str(input_val)}` and `returns=['first_func_res']`. -/
def stepA : Step :=
  ⟨"func-a", [("input_value", .runArgStr "input_val")], ["first_func_res"], []⟩

/-- Step `func-b` of `workflow.py`: inside `dsl.Condition(step_1_output > 5)`
with `condition1.after(step_1)`, `returns=['second_func_res']`. -/
def stepB : Step :=
  ⟨"func-b", [], ["second_func_res"], ["func-a"]⟩

/-- Step `func-c` of `workflow.py`: inside `dsl.Condition(step_1_output <= 5)`
with `condition2.after(step_1)`, `returns=['second_func_res']`. -/
def stepC : Step :=
  ⟨"func-c", [], ["second_func_res"], ["func-a"]⟩

/-- `dsl.Condition(step_1_output > 5)` of `workflow.py`, gating `func-b`. -/
def cond1 : Condition :=
  ⟨"func-a", "first_func_res", .gt 5, ["func-b"]⟩

/-- `dsl.Condition(step_1_output <= 5)` of `workflow.py`, gating `func-c`. -/
def cond2 : Condition :=
  ⟨"func-a", "first_func_res", .le 5, ["func-c"]⟩

/-- The notebook's pipeline: A → \x7bB if A.output > 5, C if A.output <= 5\x7d. -/
def conditionWorkflow : WorkflowDef :=
  ⟨[stepA, stepB, stepC], [cond1, cond2]⟩

/-- The `func-b` branch condition with an arbitrary predicate in place of the
notebook's `> 5`. -/
def cndB (p : Pred) : Condition :=
  ⟨"func-a", "first_func_res", p, ["func-b"]⟩

/-- The `func-c` branch condition with an arbitrary predicate in place of the
notebook's `<= 5`. -/
def cndC (q : Pred) : Condition :=
  ⟨"func-a", "first_func_res", q, ["func-c"]⟩

/-- The same branch-point shape with arbitrary sibling predicates in place of
the notebook's `> 5` / `<= 5` pair. -/
def conditionWorkflowP (p q : Pred) : WorkflowDef :=
  ⟨[stepA, stepB, stepC], [cndB p, cndC q]⟩

/-- The compiled form of `conditionWorkflowP p q`. -/
def compiledP (p q : Pred) : CompiledGraph :=
  ⟨[stepA, stepB, stepC], [cndB p, cndC q], ["func-a", "func-b", "func-c"]⟩

/-- The compiled form of the notebook's pipeline. -/
def compiledCondition : CompiledGraph :=
  compiledP (.gt 5) (.le 5)

/-- One run of the notebook's pipeline with integer workflow argument
`input_val := n`, against the notebook's executor. -/
def notebookRun (n : Int) : RunReport :=
  runWorkflow compiledCondition notebookExec [("input_val", .int n)]

/-! ## Helper lemmas on status updates and skip marking -/

theorem statusOf_setStatus (acc : RunAcc) (n : String) (st : StepStatus)
    (m : String) :
    (acc.setStatus n st).statusOf m = if m = n then st else acc.statusOf m := by
  by_cases h : m = n
  · simp [RunAcc.statusOf, RunAcc.setStatus, List.lookup, h]
  · have hb : (m == n) = false := beq_eq_false_iff_ne.mpr h
    simp [RunAcc.statusOf, RunAcc.setStatus, List.lookup, hb, h]

theorem skipOne_statusOf_skipped {acc : RunAcc} {d : String} (e : String)
    (h : acc.statusOf d = .skipped) :
    (skipOne acc e).statusOf d = .skipped := by
  unfold skipOne
  split
  · rw [statusOf_setStatus]
    split
    · next heq =>
      subst heq
      simp_all
    · exact h
  · exact h

theorem markSkipped_statusOf_skipped {acc : RunAcc} {d : String}
    (ds : List String) (h : acc.statusOf d = .skipped) :
    (markSkipped acc ds).statusOf d = .skipped := by
  induction ds generalizing acc with
  | nil => exact h
  | cons e rest ih => exact ih (skipOne_statusOf_skipped e h)

theorem skipOne_statusOf_ne {acc : RunAcc} {d e : String} (hne : d ≠ e) :
    (skipOne acc e).statusOf d = acc.statusOf d := by
  unfold skipOne
  split
  · rw [statusOf_setStatus, if_neg hne]
  · rfl

theorem markSkipped_statusOf_mem {acc : RunAcc} {ds : List String} {d : String}
    (hmem : d ∈ ds) (h : acc.statusOf d = .pending) :
    (markSkipped acc ds).statusOf d = .skipped := by
  induction ds generalizing acc with
  | nil => cases hmem
  | cons e rest ih =>
    by_cases he : d = e
    · subst he
      have h1 : (skipOne acc d).statusOf d = .skipped := by
        unfold skipOne
        rw [h]
        simp [statusOf_setStatus]
      exact markSkipped_statusOf_skipped rest h1
    · have h1 : (skipOne acc e).statusOf d = .pending := by
        rw [skipOne_statusOf_ne he]; exact h
      have hm : d ∈ rest := by
        cases hmem with
        | head => exact absurd rfl he
        | tail _ hm => exact hm
      exact ih hm h1

/-! ## Claim theorems: branch evaluation and the concrete notebook runs -/

/-- C2: for the notebook's workflow A → \x7bB if A.output > 5, C otherwise\x7d,
compiling succeeds, and the two recorded runs are reproduced: with
`input_val = 6`, `func-a` succeeds with output 6, `func-b` runs and succeeds
with its message, and `func-c` is skipped; with `input_val = 3`, `func-a`
succeeds with output 3, `func-c` runs and succeeds with its message, and
`func-b` is skipped. -/
theorem notebook_runs_match_recorded_results :
    compile conditionWorkflow = .ok compiledCondition
    ∧ ((notebookRun 6).statusOf "func-a" = .succeeded
    ∧ (notebookRun 6).outputOf "func-a" "first_func_res" = some (.int 6)
    ∧ (notebookRun 6).statusOf "func-b" = .succeeded
    ∧ (notebookRun 6).outputOf "func-b" "second_func_res" = some func_B
    ∧ (notebookRun 6).statusOf "func-c" = .skipped
    ∧ (notebookRun 6).status = .succeeded)
    ∧ ((notebookRun 3).statusOf "func-a" = .succeeded
    ∧ (notebookRun 3).outputOf "func-a" "first_func_res" = some (.int 3)
    ∧ (notebookRun 3).statusOf "func-c" = .succeeded
    ∧ (notebookRun 3).outputOf "func-c" "second_func_res" = some func_C
    ∧ (notebookRun 3).statusOf "func-b" = .skipped
    ∧ (notebookRun 3).status = .succeeded) :=
  ⟨rfl, by decide, by decide⟩

/-- C4: the branch evaluator returns `NoBranchSelectedError` exactly when no
condition of the branch point evaluates true on the upstream output, and at a
non-empty branch point where no condition holds the coordinator surfaces the
error and fails the run rather than silently skipping all branches. -/
theorem noBranchSelected_iff_no_condition_holds (outs : List (String × Value))
    (conds : List Condition) (acc : RunAcc) (n : String) :
    (evalBranchPoint outs conds = .error .noBranchSelected ↔
      ∀ c ∈ conds, condHolds outs c = false)
    ∧ (branchGroup conds n ≠ [] →
       (∀ c ∈ branchGroup conds n, condHolds outs c = false) →
       (afterSuccess conds acc n outs).failed = true
         ∧ (afterSuccess conds acc n outs).err = some .noBranchSelected) := by
  constructor
  · unfold evalBranchPoint
    cases hsel : selectBranch outs conds with
    | none =>
      simp only [selectBranch, List.find?_eq_none] at hsel
      simp only [true_iff, reduceCtorEq]
      intro c hc
      simpa using hsel c hc
    | some c =>
      have hc : condHolds outs c = true := List.find?_some hsel
      have hmem : c ∈ conds := List.mem_of_find?_eq_some hsel
      simp only [reduceCtorEq, false_iff]
      intro hall
      exact absurd (hall c hmem) (by simp [hc])
  · intro hne hall
    have hemp : (branchGroup conds n).isEmpty = false := by
      simpa [List.isEmpty_iff] using hne
    have hsel : selectBranch outs (branchGroup conds n) = none := by
      simp only [selectBranch, List.find?_eq_none]
      intro c hc
      simpa using hall c hc
    simp [afterSuccess, evalBranchPoint, hemp, hsel]

/-- Witness for C4: with output value 7 and the single condition
`first_func_res <= 5`, the evaluator raises `NoBranchSelectedError` and the
run is marked failed. -/
theorem noBranchSelected_iff_no_condition_holds_witness :
    evalBranchPoint [("first_func_res", .int 7)] [cond2]
        = .error .noBranchSelected
    ∧ (afterSuccess [cond2] ⟨[], [], false, none⟩ "func-a"
        [("first_func_res", .int 7)]).failed = true := by
  have h := noBranchSelected_iff_no_condition_holds
    [("first_func_res", .int 7)] [cond2] ⟨[], [], false, none⟩ "func-a"
  exact ⟨h.1.mpr (by decide), (h.2 (by decide) (by decide)).1⟩

/-- C3: the branch evaluator selects exactly the first condition (in
declaration order) whose predicate holds on the named upstream output — so
when several conditions hold, the first in declaration order wins — and once a
condition is selected every gated step of every other sibling condition is
marked skipped (not executed, not failed). -/
theorem branch_evaluator_first_match (outs : List (String × Value))
    (conds : List Condition) (c : Condition) (acc : RunAcc) (n : String) :
    (selectBranch outs conds = some c ↔
      condHolds outs c = true ∧
      ∃ l1 l2, conds = l1 ++ c :: l2 ∧ ∀ c' ∈ l1, condHolds outs c' = false)
    ∧ (selectBranch outs (branchGroup conds n) = some c →
       ∀ d ∈ skippedSiblings (branchGroup conds n) c,
         acc.statusOf d = .pending →
         (afterSuccess conds acc n outs).statusOf d = .skipped) := by
  constructor
  · rw [selectBranch, List.find?_eq_some]
    simp
  · intro hsel d hd hp
    have hmem : c ∈ branchGroup conds n := List.mem_of_find?_eq_some hsel
    have hne : branchGroup conds n ≠ [] := List.ne_nil_of_mem hmem
    have hemp : (branchGroup conds n).isEmpty = false := by
      simpa [List.isEmpty_iff] using hne
    have heq : afterSuccess conds acc n outs =
        markSkipped acc (skippedSiblings (branchGroup conds n) c) := by
      simp [afterSuccess, evalBranchPoint, hemp, hsel]
    rw [heq]
    exact markSkipped_statusOf_mem hd hp

/-- Witness for C3: with output value 7 both notebook conditions are posed;
`step_1_output > 5` (the first) is selected and the other branch's gated step
`func-c` is marked skipped. -/
theorem branch_evaluator_first_match_witness :
    selectBranch [("first_func_res", .int 7)] [cond1, cond2] = some cond1
    ∧ (afterSuccess [cond1, cond2] ⟨[], [], false, none⟩ "func-a"
        [("first_func_res", .int 7)]).statusOf "func-c" = .skipped := by
  have h := branch_evaluator_first_match [("first_func_res", .int 7)]
    [cond1, cond2] cond1 ⟨[], [], false, none⟩ "func-a"
  refine ⟨h.1.mpr ⟨by decide, [], [cond2], rfl, by decide⟩, ?_⟩
  exact h.2 (by decide) "func-c" (by decide) (by decide)

/-- C10: the notebook's two condition predicates `step_1_output > 5` and
`step_1_output <= 5` partition the integers — on every integer output exactly
one of them is true — so for an integer output of `func-a` the
`NoBranchSelectedError` branch is unreachable at this branch point. -/
theorem notebook_predicates_partition_int (n : Int) :
    (cond1.pred.eval (.int n) = true ↔ ¬ cond2.pred.eval (.int n) = true)
    ∧ evalBranchPoint [("first_func_res", .int n)] [cond1, cond2]
        ≠ .error .noBranchSelected := by
  constructor
  · simp [cond1, cond2, Pred.eval, Pred.evalInt]
  · by_cases h : 5 < n
    · simp [evalBranchPoint, selectBranch, condHolds, cond1, cond2, List.lookup,
        Pred.eval, Pred.evalInt, h]
    · have h2 : n ≤ 5 := by omega
      simp [evalBranchPoint, selectBranch, condHolds, cond1, cond2, List.lookup,
        Pred.eval, Pred.evalInt, h, h2]

/-! ## Dependency cycles and the compile operation -/

/-- Direct dependency between declared steps: `a` depends on `b`. -/
def DependsOn (steps : List Step) (a b : String) : Prop :=
  ∃ s, stepNamed steps a = some s ∧ b ∈ s.deps ∧ ∃ t, stepNamed steps b = some t

/-- The step-dependency graph contains a cycle. -/
def HasCycle (steps : List Step) : Prop :=
  ∃ a, Relation.TransGen (DependsOn steps) a a

theorem cycle_next {α : Type} {r : α → α → Prop} {x : α}
    (h : Relation.TransGen r x x) : ∃ y, r x y ∧ Relation.TransGen r y y := by
  rcases Relation.TransGen.head'_iff.mp h with ⟨y, hxy, hyx⟩
  exact ⟨y, hxy, Relation.TransGen.tail' hyx hxy⟩

theorem stepNamed_of_mem {steps : List Step}
    (hnd : (steps.map Step.name).Nodup) {s : Step} (hs : s ∈ steps) :
    stepNamed steps s.name = some s := by
  induction steps with
  | nil => cases hs
  | cons t rest ih =>
    rcases List.mem_cons.mp hs with h | h
    · subst h
      simp [stepNamed]
    · have hnd' := hnd
      rw [List.map_cons, List.nodup_cons] at hnd'
      have hne : ¬ t.name = s.name := by
        intro he
        exact hnd'.1 (he ▸ List.mem_map_of_mem Step.name h)
      unfold stepNamed
      rw [List.find?_cons_of_neg _ (by simpa using hne)]
      exact ih hnd'.2 h

theorem stepNamed_mem_name {steps : List Step} {n : String} {s : Step}
    (h : stepNamed steps n = some s) : s ∈ steps ∧ s.name = n := by
  refine ⟨List.mem_of_find?_eq_some h, ?_⟩
  have := List.find?_some h
  simpa using this

theorem kahnAux_none_of_cycle (steps : List Step)
    (hnd : (steps.map Step.name).Nodup) {x : String}
    (hx : Relation.TransGen (DependsOn steps) x x) :
    ∀ (fuel : Nat) (remaining : List Step), remaining.Sublist steps →
      (∀ y, Relation.TransGen (DependsOn steps) y y →
        ∃ s ∈ remaining, s.name = y) →
      kahnAux fuel remaining = none := by
  intro fuel
  induction fuel with
  | zero =>
    intro remaining hsub hinv
    obtain ⟨s, hs, -⟩ := hinv x hx
    have hne : remaining.isEmpty = false := by
      simp [List.isEmpty_iff]
      exact List.ne_nil_of_mem hs
    unfold kahnAux
    rw [hne]
    simp
  | succ n ih =>
    intro remaining hsub hinv
    obtain ⟨s0, hs0, -⟩ := hinv x hx
    have hne : remaining.isEmpty = false := by
      simp [List.isEmpty_iff]
      exact List.ne_nil_of_mem hs0
    have hkeep : ∀ y, Relation.TransGen (DependsOn steps) y y →
        ∃ s ∈ remaining.filter (fun s => !removable remaining s), s.name = y := by
      intro y hy
      obtain ⟨s, hs, hname⟩ := hinv y hy
      refine ⟨s, List.mem_filter.mpr ⟨hs, ?_⟩, hname⟩
      obtain ⟨z, hyz, hzz⟩ := cycle_next hy
      obtain ⟨t, ht, htname⟩ := hinv z hzz
      obtain ⟨s', h1, h2, -⟩ := hyz
      have hsy : stepNamed steps y = some s := by
        have := stepNamed_of_mem hnd (hsub.subset hs)
        rwa [hname] at this
      have hss : s' = s := by
        rw [hsy] at h1
        exact (Option.some_inj.mp h1).symm
      subst hss
      have hfind : (remaining.find? (fun u => u.name = z)).isSome := by
        rw [List.find?_isSome]
        exact ⟨t, ht, by simpa using htname⟩
      simp only [Bool.not_eq_true', removable, List.all_eq_false]
      refine ⟨z, h2, ?_⟩
      cases hopt : remaining.find? (fun u => u.name = z) with
      | none =>
        rw [hopt] at hfind
        simp at hfind
      | some u =>
        simp
    unfold kahnAux
    rw [hne]
    simp only [Bool.false_eq_true, if_false]
    by_cases hrm : (remaining.filter (fun s => removable remaining s)).isEmpty
    · simp [hrm]
    · simp only [hrm, Bool.false_eq_true, if_false]
      rw [ih (remaining.filter (fun s => !removable remaining s))
        ((List.filter_sublist _).trans hsub) hkeep]
      rfl

theorem length_filter_not_add (l : List Step) (p : Step → Bool) :
    (l.filter p).length + (l.filter (fun a => !p a)).length = l.length := by
  induction l with
  | nil => rfl
  | cons a rest ih =>
    by_cases h : p a
    · simp [List.filter_cons, h, Nat.succ_add]
      omega
    · simp [List.filter_cons, h]
      omega

theorem exists_removable (steps : List Step)
    (hnd : (steps.map Step.name).Nodup) (remaining : List Step)
    (hsub : remaining.Sublist steps) (hne : remaining ≠ [])
    (hnocyc : ¬ HasCycle steps) :
    ∃ s ∈ remaining, removable remaining s = true := by
  by_contra hcon
  push_neg at hcon
  have hfin : {x : String | x ∈ remaining.map Step.name}.Finite :=
    List.finite_toSet _
  haveI hfin2 : Finite {x : String // x ∈ remaining.map Step.name} :=
    hfin.to_subtype
  let q : {x : String // x ∈ remaining.map Step.name} →
      {x : String // x ∈ remaining.map Step.name} → Prop :=
    fun a b => DependsOn steps b.val a.val
  have hirr : ∀ a, ¬ Relation.TransGen q a a := by
    intro a ha
    apply hnocyc
    refine ⟨a.val, ?_⟩
    have hlift := Relation.TransGen.lift (p := Function.swap (DependsOn steps))
      Subtype.val (fun u v huv => huv) ha
    exact Relation.transGen_swap.mp hlift
  haveI hti : IsTrans _ (Relation.TransGen q) :=
    ⟨fun a b c hab hbc => Relation.TransGen.trans hab hbc⟩
  haveI hii : IsIrrefl _ (Relation.TransGen q) := ⟨hirr⟩
  have hwf1 : WellFounded (Relation.TransGen q) :=
    Finite.wellFounded_of_trans_of_irrefl _
  have hwf : WellFounded q :=
    Subrelation.wf (fun h => Relation.TransGen.single h) hwf1
  obtain ⟨s0, hs0⟩ := List.exists_mem_of_ne_nil remaining hne
  have hN0 : s0.name ∈ remaining.map Step.name := List.mem_map_of_mem _ hs0
  obtain ⟨m, -, hmin⟩ := hwf.has_min Set.univ ⟨⟨s0.name, hN0⟩, trivial⟩
  obtain ⟨t, ht, htname⟩ := List.mem_map.mp m.property
  have hrem : removable remaining t = false := by
    have := hcon t ht
    simpa using this
  simp only [removable, List.all_eq_false] at hrem
  obtain ⟨d, hd, hdn⟩ := hrem
  have hdsome : (remaining.find? (fun u => u.name = d)).isSome := by
    cases hopt : remaining.find? (fun u => u.name = d) with
    | none =>
      rw [hopt] at hdn
      simp at hdn
    | some u => simp
  obtain ⟨u, hu, hun⟩ := List.find?_isSome.mp hdsome
  have hun' : u.name = d := by simpa using hun
  have hdN : d ∈ remaining.map Step.name := by
    rw [← hun']
    exact List.mem_map_of_mem _ hu
  have hdep : DependsOn steps m.val d := by
    refine ⟨t, ?_, hd, u, ?_⟩
    · have := stepNamed_of_mem hnd (hsub.subset ht)
      rwa [htname] at this
    · have := stepNamed_of_mem hnd (hsub.subset hu)
      rwa [hun'] at this
  exact hmin ⟨d, hdN⟩ trivial hdep

theorem kahnAux_some (steps : List Step)
    (hnd : (steps.map Step.name).Nodup) (hnocyc : ¬ HasCycle steps) :
    ∀ (fuel : Nat) (remaining : List Step), remaining.Sublist steps →
      remaining.length ≤ fuel →
      ∃ ord, kahnAux fuel remaining = some ord := by
  intro fuel
  induction fuel with
  | zero =>
    intro remaining hsub hlen
    have : remaining = [] := List.length_eq_zero.mp (Nat.le_zero.mp hlen)
    subst this
    exact ⟨[], rfl⟩
  | succ n ih =>
    intro remaining hsub hlen
    by_cases hne : remaining.isEmpty
    · refine ⟨[], ?_⟩
      unfold kahnAux
      rw [hne]
      simp
    · have hnenil : remaining ≠ [] := by
        simpa [List.isEmpty_iff] using hne
      obtain ⟨s, hs, hrm⟩ := exists_removable steps hnd remaining hsub hnenil hnocyc
      have hrmne : (remaining.filter (fun s => removable remaining s)).isEmpty
          = false := by
        rw [← Bool.not_eq_true, List.isEmpty_iff]
        exact List.ne_nil_of_mem (List.mem_filter.mpr ⟨hs, hrm⟩)
      have hlt : (remaining.filter (fun s => !removable remaining s)).length ≤ n := by
        have hsum := length_filter_not_add remaining (fun s => removable remaining s)
        have hpos : 0 < (remaining.filter (fun s => removable remaining s)).length :=
          List.length_pos.mpr (List.ne_nil_of_mem (List.mem_filter.mpr ⟨hs, hrm⟩))
        omega
      obtain ⟨ord, hord⟩ := ih (remaining.filter (fun s => !removable remaining s))
        ((List.filter_sublist _).trans hsub) hlt
      refine ⟨(remaining.filter (fun s => removable remaining s)).map Step.name
        ++ ord, ?_⟩
      unfold kahnAux
      rw [eq_false_of_ne_true hne]
      simp only [Bool.false_eq_true, if_false, hrmne]
      rw [hord]
      rfl

theorem cycle_node_mem {steps : List Step} {y : String}
    (hy : Relation.TransGen (DependsOn steps) y y) :
    ∃ s ∈ steps, s.name = y := by
  obtain ⟨z, hyz, -⟩ := cycle_next hy
  obtain ⟨s, h1, -, -⟩ := hyz
  obtain ⟨hmem, hname⟩ := stepNamed_mem_name h1
  exact ⟨s, hmem, hname⟩

/-- C5: for every workflow definition with distinct step names, if the
step-dependency graph is acyclic and every step input is satisfiable then
`compile` succeeds and returns a compiled graph, and if the graph contains a
cycle then `compile` fails with `CycleDetectedError`. -/
theorem compile_acyclic_iff (wf : WorkflowDef)
    (hnd : (wf.steps.map Step.name).Nodup) :
    (¬ HasCycle wf.steps →
      (∀ s ∈ wf.steps, ∀ pi ∈ s.inputs, inputOk wf.steps s pi.2 = true) →
      ∃ g, compile wf = .ok g)
    ∧ (HasCycle wf.steps → compile wf = .error .cycleDetected) := by
  constructor
  · intro hnocyc hinputs
    obtain ⟨ord, hord⟩ := kahnAux_some wf.steps hnd hnocyc wf.steps.length
      wf.steps (List.Sublist.refl _) (Nat.le_refl _)
    have hbad : firstBadInput wf.steps = none := by
      rw [firstBadInput, List.findSome?_eq_none_iff]
      intro s hs
      rw [List.findSome?_eq_none_iff]
      intro pi hpi
      rw [if_pos (hinputs s hs pi hpi)]
    refine ⟨⟨wf.steps, wf.conditions, ord⟩, ?_⟩
    simp [compile, topoOrder, hord, hbad]
  · intro hcyc
    obtain ⟨a, ha⟩ := hcyc
    have hnone : topoOrder wf.steps = none := by
      unfold topoOrder
      refine kahnAux_none_of_cycle wf.steps hnd ha _ wf.steps
        (List.Sublist.refl _) ?_
      intro y hy
      exact cycle_node_mem hy
    simp [compile, hnone]

/-- The two-step cyclic definition x → y → x. -/
def cycWf : WorkflowDef :=
  ⟨[⟨"x", [], [], ["y"]⟩, ⟨"y", [], [], ["x"]⟩], []⟩

/-- Witness for C5: compiling the cyclic definition x → y → x fails with
`CycleDetectedError`. -/
theorem compile_acyclic_iff_witness :
    compile cycWf = .error .cycleDetected := by
  apply (compile_acyclic_iff cycWf (by decide)).2
  refine ⟨"x", Relation.TransGen.head (b := "y") ?_ (Relation.TransGen.single ?_)⟩
  · exact ⟨⟨"x", [], [], ["y"]⟩, rfl, by decide, ⟨"y", [], [], ["x"]⟩, rfl⟩
  · exact ⟨⟨"y", [], [], ["x"]⟩, rfl, by decide, ⟨"x", [], [], ["y"]⟩, rfl⟩

/-- C9: `compile` is idempotent on results — two compilations of the same
workflow definition yield structurally identical compiled graphs. -/
theorem compile_deterministic (wf : WorkflowDef) (g1 g2 : CompiledGraph)
    (h1 : compile wf = .ok g1) (h2 : compile wf = .ok g2) : g1 = g2 := by
  rw [h1] at h2
  exact Except.ok.inj h2

/-- Witness for C9: two compilations of the notebook's workflow give the same
compiled graph. -/
theorem compile_deterministic_witness :
    compiledCondition = compiledCondition
    ∧ compile conditionWorkflow = .ok compiledCondition :=
  ⟨compile_deterministic conditionWorkflow compiledCondition compiledCondition
    rfl rfl, rfl⟩

/-- Modelled from the spec: the mutable state of one Run as seen by the Run
Coordinator — per-step status, written per-step results, and whether the run
has failed.  The coordinator is not in the repository. -/
structure TraceState where
  status : String → StepStatus
  results : String → Option (List (String × Value))
  failed : Bool

/-- The initial state of a run: every step pending, no results, not failed. -/
def initTrace : TraceState :=
  ⟨fun _ => .pending, fun _ => none, false⟩

/-- Overwrite one step's status. -/
def updateStatus (σ : TraceState) (n : String) (st : StepStatus) : TraceState :=
  { σ with status := fun m => if m = n then st else σ.status m }

/-- The state after a step completes successfully with result `outs`. -/
def completeState (σ : TraceState) (n : String)
    (outs : List (String × Value)) : TraceState :=
  { status := fun m => if m = n then .succeeded else σ.status m
    results := fun m => if m = n then some outs else σ.results m
    failed := σ.failed }

/-- Every condition gating `n` has been resolved and selected `n`'s branch. -/
def selectedFor (g : CompiledGraph) (σ : TraceState) (n : String) : Bool :=
  g.conditions.all fun c =>
    !(decide (n ∈ c.gatedSteps)) ||
      (match σ.results c.sourceStep with
       | some outs =>
         selectBranch outs (branchGroup g.conditions c.sourceStep) == some c
       | none => false)

/-- The step was not selected: some condition gating it resolved to a
different sibling, or one of its dependencies was skipped. -/
def notSelected (g : CompiledGraph) (σ : TraceState) (n : String) : Bool :=
  (g.conditions.any fun c =>
    decide (n ∈ c.gatedSteps) &&
      (match σ.results c.sourceStep with
       | some outs =>
         match selectBranch outs (branchGroup g.conditions c.sourceStep) with
         | some selc => selc != c
         | none => false
       | none => false))
  || (match stepNamed g.steps n with
      | some s => s.deps.any (fun d => σ.status d == .skipped)
      | none => false)

/-- Modelled from the spec: the step relation of the Run Coordinator.  A
pending step whose dependencies are all terminal (succeeded or skipped), whose
gating conditions selected it, becomes eligible while the run has not failed;
an eligible step is submitted (inputs resolved and handed to the executor),
becoming running, while the run has not failed; a pending step not selected by
its guard (or downstream of a skipped step) is skipped; a running step
completes, writing its result, or fails, failing the run.  The coordinator is
not in the repository. -/
inductive StepRel (g : CompiledGraph) : TraceState → TraceState → Prop where
  | eligible (σ : TraceState) (n : String) (s : Step)
      (hs : stepNamed g.steps n = some s)
      (hp : σ.status n = .pending)
      (hdeps : ∀ d ∈ s.deps, (σ.status d).isDoneOk = true)
      (hsel : selectedFor g σ n = true)
      (hok : σ.failed = false) :
      StepRel g σ (updateStatus σ n .eligible)
  | submit (σ : TraceState) (n : String)
      (he : σ.status n = .eligible)
      (hok : σ.failed = false) :
      StepRel g σ (updateStatus σ n .running)
  | skip (σ : TraceState) (n : String)
      (hp : σ.status n = .pending)
      (hns : notSelected g σ n = true) :
      StepRel g σ (updateStatus σ n .skipped)
  | completeOk (σ : TraceState) (n : String) (outs : List (String × Value))
      (hr : σ.status n = .running) :
      StepRel g σ (completeState σ n outs)
  | completeFail (σ : TraceState) (n : String)
      (hr : σ.status n = .running) :
      StepRel g σ { updateStatus σ n .failed with failed := true }

/-- A state of the coordinator reachable in some run. -/
def Reachable (g : CompiledGraph) (σ : TraceState) : Prop :=
  Relation.ReflTransGen (StepRel g) initTrace σ

/-- The terminal statuses. -/
def StepStatus.isTerminal : StepStatus → Bool
  | .succeeded => true
  | .failed => true
  | .skipped => true
  | _ => false

/-- The legal edges of the per-step state machine. -/
def machineEdge (a b : StepStatus) : Prop :=
  a = b ∨ (a = .pending ∧ b = .eligible) ∨ (a = .pending ∧ b = .skipped)
    ∨ (a = .eligible ∧ b = .running) ∨ (a = .running ∧ b = .succeeded)
    ∨ (a = .running ∧ b = .failed)

/-- C7: every transition of the Run Coordinator moves each step's state
along the machine `pending → eligible → running → (succeeded | failed)` with
`skipped` reachable directly from `pending`, a terminal state (succeeded,
failed or skipped) is never left, and a `pending → skipped` move happens only
when the step was not selected — its guarding condition resolved to a
different sibling, or an upstream dependency was skipped. -/
theorem step_machine (g : CompiledGraph) (σ σ' : TraceState)
    (h : StepRel g σ σ') (n : String) :
    machineEdge (σ.status n) (σ'.status n)
    ∧ ((σ.status n).isTerminal = true → σ'.status n = σ.status n)
    ∧ (σ.status n = .pending → σ'.status n = .skipped →
        notSelected g σ n = true) := by
  cases h with
  | eligible m s hs hp hdeps hsel hok =>
    by_cases hm : n = m
    · subst hm
      simp [updateStatus, machineEdge, hp, StepStatus.isTerminal]
    · simp [updateStatus, hm, machineEdge]
      intro h1 h2
      rw [h1] at h2
      cases h2
  | submit m he hok =>
    by_cases hm : n = m
    · subst hm
      simp [updateStatus, machineEdge, he, StepStatus.isTerminal]
    · simp [updateStatus, hm, machineEdge]
      intro h1 h2
      rw [h1] at h2
      cases h2
  | skip m hp hns =>
    by_cases hm : n = m
    · subst hm
      simp [updateStatus, machineEdge, hp, StepStatus.isTerminal]
      exact hns
    · simp [updateStatus, hm, machineEdge]
      intro h1 h2
      rw [h1] at h2
      cases h2
  | completeOk m outs hr =>
    by_cases hm : n = m
    · subst hm
      simp [completeState, machineEdge, hr, StepStatus.isTerminal]
    · simp [completeState, hm, machineEdge]
      intro h1 h2
      rw [h1] at h2
      cases h2
  | completeFail m hr =>
    by_cases hm : n = m
    · subst hm
      simp [updateStatus, machineEdge, hr, StepStatus.isTerminal]
    · simp [updateStatus, hm, machineEdge]
      intro h1 h2
      rw [h1] at h2
      cases h2



/-- Invariant: an eligible step has all its dependencies terminal. -/
def EligibleDepsDone (g : CompiledGraph) (σ : TraceState) : Prop :=
  ∀ n s, stepNamed g.steps n = some s → σ.status n = .eligible →
    ∀ d ∈ s.deps, (σ.status d).isDoneOk = true

theorem doneOk_step (g : CompiledGraph) {σ σ' : TraceState}
    (h : StepRel g σ σ') (d : String)
    (hd : (σ.status d).isDoneOk = true) :
    (σ'.status d).isDoneOk = true := by
  cases h with
  | eligible m s hs hp hdeps hsel hok =>
    by_cases hm : d = m
    · subst hm
      rw [hp] at hd
      cases hd
    · simpa [updateStatus, hm] using hd
  | submit m he hok =>
    by_cases hm : d = m
    · subst hm
      rw [he] at hd
      cases hd
    · simpa [updateStatus, hm] using hd
  | skip m hp hns =>
    by_cases hm : d = m
    · subst hm
      simp [updateStatus, StepStatus.isDoneOk]
    · simpa [updateStatus, hm] using hd
  | completeOk m outs hr =>
    by_cases hm : d = m
    · subst hm
      simp [completeState, StepStatus.isDoneOk]
    · simpa [completeState, hm] using hd
  | completeFail m hr =>
    by_cases hm : d = m
    · subst hm
      rw [hr] at hd
      cases hd
    · simpa [updateStatus, hm] using hd

theorem eligible_source (g : CompiledGraph) {σ σ' : TraceState} {n : String}
    (h : StepRel g σ σ') (he : σ'.status n = .eligible) :
    σ.status n = .eligible
    ∨ (σ.status n = .pending ∧ ∃ s, stepNamed g.steps n = some s ∧
        ∀ d ∈ s.deps, (σ.status d).isDoneOk = true) := by
  cases h with
  | eligible m s hs hp hdeps hsel hok =>
    by_cases hm : n = m
    · subst hm
      exact Or.inr ⟨hp, s, hs, hdeps⟩
    · simp only [updateStatus, hm, if_false] at he
      exact Or.inl (by simpa [hm] using he)
  | submit m he2 hok =>
    by_cases hm : n = m
    · subst hm
      simp [updateStatus] at he
    · exact Or.inl (by simpa [updateStatus, hm] using he)
  | skip m hp hns =>
    by_cases hm : n = m
    · subst hm
      simp [updateStatus] at he
    · exact Or.inl (by simpa [updateStatus, hm] using he)
  | completeOk m outs hr =>
    by_cases hm : n = m
    · subst hm
      simp [completeState] at he
    · exact Or.inl (by simpa [completeState, hm] using he)
  | completeFail m hr =>
    by_cases hm : n = m
    · subst hm
      simp [updateStatus] at he
    · exact Or.inl (by simpa [updateStatus, hm] using he)

theorem eligibleDepsDone_step (g : CompiledGraph) {σ σ' : TraceState}
    (h : StepRel g σ σ') (hinv : EligibleDepsDone g σ) :
    EligibleDepsDone g σ' := by
  intro n s hsn he' d hd
  rcases eligible_source g h he' with hold | ⟨hpend, s2, hs2, hdeps⟩
  · exact doneOk_step g h d (hinv n s hsn hold d hd)
  · have hss : s2 = s := by
      rw [hs2] at hsn
      exact Option.some_inj.mp hsn
    subst hss
    exact doneOk_step g h d (hdeps d hd)

theorem eligibleDepsDone_reachable (g : CompiledGraph) {σ : TraceState}
    (h : Reachable g σ) : EligibleDepsDone g σ := by
  induction h with
  | refl =>
    intro n s hsn he
    cases he
  | tail hab hbc ih => exact eligibleDepsDone_step g hbc ih



theorem running_source (g : CompiledGraph) {σ σ' : TraceState} {n : String}
    (h : StepRel g σ σ') (hr : σ'.status n = .running) :
    σ.status n = .running ∨ σ.status n = .eligible := by
  cases h with
  | eligible m s hs hp hdeps hsel hok =>
    by_cases hm : n = m
    · subst hm
      simp [updateStatus] at hr
    · exact Or.inl (by simpa [updateStatus, hm] using hr)
  | submit m he hok =>
    by_cases hm : n = m
    · subst hm
      exact Or.inr he
    · exact Or.inl (by simpa [updateStatus, hm] using hr)
  | skip m hp hns =>
    by_cases hm : n = m
    · subst hm
      simp [updateStatus] at hr
    · exact Or.inl (by simpa [updateStatus, hm] using hr)
  | completeOk m outs hr2 =>
    by_cases hm : n = m
    · subst hm
      simp [completeState] at hr
    · exact Or.inl (by simpa [completeState, hm] using hr)
  | completeFail m hr2 =>
    by_cases hm : n = m
    · subst hm
      simp [updateStatus] at hr
    · exact Or.inl (by simpa [updateStatus, hm] using hr)

/-- C6: in every run, whenever a step is submitted (transitions into
`running`, which is when its resolved inputs are handed to the executor),
every one of its declared upstream dependencies has already reached a
terminal state (succeeded or skipped) — stated over every reachable state of
the coordinator's step relation. -/
theorem submit_requires_deps_terminal (g : CompiledGraph)
    (σ σ' : TraceState) (n : String) (s : Step)
    (hre : Reachable g σ) (h : StepRel g σ σ')
    (hs : stepNamed g.steps n = some s)
    (hnr : σ.status n ≠ .running) (hr' : σ'.status n = .running) :
    ∀ d ∈ s.deps, (σ.status d).isDoneOk = true := by
  rcases running_source g h hr' with hrun | helig
  · exact absurd hrun hnr
  · exact eligibleDepsDone_reachable g hre n s hs helig



theorem results_inv_step (g : CompiledGraph) {σ σ' : TraceState}
    (h : StepRel g σ σ')
    (hinv : ∀ y outs, σ.results y = some outs → σ.status y = .succeeded) :
    ∀ y outs, σ'.results y = some outs → σ'.status y = .succeeded := by
  intro y outs hy
  cases h with
  | eligible m s hs hp hdeps hsel hok =>
    by_cases hm : y = m
    · subst hm
      rw [hinv y outs hy] at hp
      cases hp
    · simp only [updateStatus, hm, if_false]
      exact hinv y outs hy
  | submit m he hok =>
    by_cases hm : y = m
    · subst hm
      rw [hinv y outs hy] at he
      cases he
    · simp only [updateStatus, hm, if_false]
      exact hinv y outs hy
  | skip m hp hns =>
    by_cases hm : y = m
    · subst hm
      rw [hinv y outs hy] at hp
      cases hp
    · simp only [updateStatus, hm, if_false]
      exact hinv y outs hy
  | completeOk m outs2 hr =>
    by_cases hm : y = m
    · subst hm
      simp [completeState]
    · simp only [completeState, hm, if_false] at hy ⊢
      exact hinv y outs hy
  | completeFail m hr =>
    by_cases hm : y = m
    · subst hm
      rw [hinv y outs hy] at hr
      cases hr
    · simp only [updateStatus, hm, if_false]
      exact hinv y outs hy

theorem results_inv (g : CompiledGraph) {σ : TraceState}
    (hre : Reachable g σ) :
    ∀ y outs, σ.results y = some outs → σ.status y = .succeeded := by
  induction hre with
  | refl =>
    intro y outs hy
    cases hy
  | tail hab hbc ih => exact results_inv_step g hbc ih

theorem frame_step (g : CompiledGraph) {σ σ' : TraceState}
    (h : StepRel g σ σ')
    (hinv : ∀ y outs, σ.results y = some outs → σ.status y = .succeeded) :
    ∀ y outs, σ.results y = some outs → σ'.results y = some outs := by
  intro y outs hy
  cases h with
  | eligible m s hs hp hdeps hsel hok => exact hy
  | submit m he hok => exact hy
  | skip m hp hns => exact hy
  | completeOk m outs2 hr =>
    by_cases hm : y = m
    · subst hm
      rw [hinv y outs hy] at hr
      cases hr
    · simp only [completeState, hm, if_false]
      exact hy
  | completeFail m hr => exact hy

theorem failed_mono_step (g : CompiledGraph) {σ σ' : TraceState}
    (h : StepRel g σ σ') (hf : σ.failed = true) : σ'.failed = true := by
  cases h with
  | eligible m s hs hp hdeps hsel hok => rw [hok] at hf; cases hf
  | submit m he hok => rw [hok] at hf; cases hf
  | skip m hp hns => exact hf
  | completeOk m outs hr => exact hf
  | completeFail m hr => rfl

theorem no_start_after_failure_step (g : CompiledGraph) {σ σ' : TraceState}
    (h : StepRel g σ σ') (hf : σ.failed = true) (n : String)
    (hn : σ.status n = .pending ∨ σ.status n = .eligible) :
    σ'.status n = .pending ∨ σ'.status n = .eligible
      ∨ σ'.status n = .skipped := by
  cases h with
  | eligible m s hs hp hdeps hsel hok => rw [hok] at hf; cases hf
  | submit m he hok => rw [hok] at hf; cases hf
  | skip m hp hns =>
    by_cases hm : n = m
    · subst hm
      simp [updateStatus]
    · simp only [updateStatus, hm, if_false]
      rcases hn with h1 | h1
      · exact Or.inl h1
      · exact Or.inr (Or.inl h1)
  | completeOk m outs hr =>
    have hm : n ≠ m := by
      intro he
      subst he
      rcases hn with h1 | h1 <;> rw [h1] at hr <;> cases hr
    simp only [completeState, hm, if_false]
    rcases hn with h1 | h1
    · exact Or.inl h1
    · exact Or.inr (Or.inl h1)
  | completeFail m hr =>
    have hm : n ≠ m := by
      intro he
      subst he
      rcases hn with h1 | h1 <;> rw [h1] at hr <;> cases hr
    simp only [updateStatus, hm, if_false]
    rcases hn with h1 | h1
    · exact Or.inl h1
    · exact Or.inr (Or.inl h1)



theorem terminal_absorbing_step (g : CompiledGraph) {σ σ' : TraceState}
    (h : StepRel g σ σ') (n : String)
    (ht : (σ.status n).isTerminal = true) : σ'.status n = σ.status n := by
  cases h with
  | eligible m s hs hp hdeps hsel hok =>
    by_cases hm : n = m
    · subst hm
      rw [hp] at ht
      cases ht
    · simp [updateStatus, hm]
  | submit m he hok =>
    by_cases hm : n = m
    · subst hm
      rw [he] at ht
      cases ht
    · simp [updateStatus, hm]
  | skip m hp hns =>
    by_cases hm : n = m
    · subst hm
      rw [hp] at ht
      cases ht
    · simp [updateStatus, hm]
  | completeOk m outs hr =>
    by_cases hm : n = m
    · subst hm
      rw [hr] at ht
      cases ht
    · simp [completeState, hm]
  | completeFail m hr =>
    by_cases hm : n = m
    · subst hm
      rw [hr] at ht
      cases ht
    · simp [updateStatus, hm]

/-- C8: along every continuation of a run, an already-written step result is
retained unchanged (in particular a step's failure alters no other step's
result), once the run is failed it stays failed, after a failure no pending or
eligible step is ever started (it can only stay put or be marked skipped),
and a step that is running can always complete normally, writing its
result — even after the run has failed. -/
theorem failure_isolation (g : CompiledGraph) (σ σ' : TraceState)
    (hre : Reachable g σ) (h : Relation.ReflTransGen (StepRel g) σ σ') :
    (∀ y outs, σ.results y = some outs → σ'.results y = some outs)
    ∧ (σ.failed = true → σ'.failed = true)
    ∧ (σ.failed = true → ∀ n,
        σ.status n = .pending ∨ σ.status n = .eligible →
        σ'.status n = .pending ∨ σ'.status n = .eligible
          ∨ σ'.status n = .skipped)
    ∧ (∀ y outs, σ'.status y = .running →
        StepRel g σ' (completeState σ' y outs)) := by
  induction h with
  | refl =>
    refine ⟨fun y outs hy => hy, fun hf => hf, fun hf n hn => ?_, ?_⟩
    · rcases hn with h1 | h1
      · exact Or.inl h1
      · exact Or.inr (Or.inl h1)
    · intro y outs hr
      exact StepRel.completeOk σ y outs hr
  | tail hab hbc ih =>
    have hreb : Reachable g _ := Relation.ReflTransGen.trans hre hab
    refine ⟨?_, ?_, ?_, ?_⟩
    · intro y outs hy
      exact frame_step g hbc (results_inv g hreb) y outs (ih.1 y outs hy)
    · intro hf
      exact failed_mono_step g hbc (ih.2.1 hf)
    · intro hf n hn
      have hb := ih.2.2.1 hf n hn
      rcases hb with h1 | h1 | h1
      · exact no_start_after_failure_step g hbc (ih.2.1 hf) n (Or.inl h1)
      · exact no_start_after_failure_step g hbc (ih.2.1 hf) n (Or.inr h1)
      · have h2 := terminal_absorbing_step g hbc n (by rw [h1]; rfl)
        rw [h1] at h2
        exact Or.inr (Or.inr h2)
    · intro y outs hr
      exact StepRel.completeOk _ y outs hr



def wOuts : List (String × Value) := [("first_func_res", .int 6)]

def wS1 : TraceState := updateStatus initTrace "func-a" .eligible

def wS2 : TraceState := updateStatus wS1 "func-a" .running

def wS3 : TraceState := completeState wS2 "func-a" wOuts

def wS4 : TraceState := updateStatus wS3 "func-b" .eligible

def wS5 : TraceState := updateStatus wS4 "func-b" .running

theorem wStep1 : StepRel compiledCondition initTrace wS1 :=
  .eligible initTrace "func-a" stepA rfl rfl
    (fun d hd => absurd hd (List.not_mem_nil d)) rfl rfl

theorem wStep2 : StepRel compiledCondition wS1 wS2 :=
  .submit wS1 "func-a" rfl rfl

theorem wStep3 : StepRel compiledCondition wS2 wS3 :=
  .completeOk wS2 "func-a" wOuts rfl

theorem wStep4 : StepRel compiledCondition wS3 wS4 :=
  .eligible wS3 "func-b" stepB rfl rfl
    (by
      intro d hd
      have hda : d = "func-a" := by simpa [stepB] using hd
      subst hda
      rfl)
    rfl rfl

theorem wStep5 : StepRel compiledCondition wS4 wS5 :=
  .submit wS4 "func-b" rfl rfl

theorem wReach4 : Reachable compiledCondition wS4 :=
  Relation.ReflTransGen.tail
    (Relation.ReflTransGen.tail
      (Relation.ReflTransGen.tail
        (Relation.ReflTransGen.tail Relation.ReflTransGen.refl wStep1)
        wStep2)
      wStep3)
    wStep4

/-- Witness for C6: in the notebook's workflow, when `func-b` is submitted
its dependency `func-a` is already terminal (succeeded). -/
theorem submit_requires_deps_terminal_witness :
    (wS4.status "func-a").isDoneOk = true :=
  submit_requires_deps_terminal compiledCondition wS4 wS5 "func-b" stepB
    wReach4 wStep5 rfl (by decide) rfl "func-a" (by decide)

/-- Witness for C7: the machine edges taken by the first two transitions of
the notebook run. -/
theorem step_machine_witness :
    machineEdge .pending .eligible
    ∧ machineEdge .eligible .running :=
  ⟨(step_machine compiledCondition initTrace wS1 wStep1 "func-a").1,
   (step_machine compiledCondition wS1 wS2 wStep2 "func-a").1⟩



def failWf : CompiledGraph :=
  ⟨[⟨"xx", [], [], []⟩, ⟨"yy", [], [], []⟩], [], ["xx", "yy"]⟩

def fOuts : List (String × Value) := [("r", .int 1)]

def fS1 : TraceState := updateStatus initTrace "xx" .eligible

def fS2 : TraceState := updateStatus fS1 "xx" .running

def fS3 : TraceState := updateStatus fS2 "yy" .eligible

def fS4 : TraceState := updateStatus fS3 "yy" .running

def fS5 : TraceState := { updateStatus fS4 "xx" .failed with failed := true }

def fS6 : TraceState := completeState fS5 "yy" fOuts

theorem fStep1 : StepRel failWf initTrace fS1 :=
  .eligible initTrace "xx" ⟨"xx", [], [], []⟩ rfl rfl
    (fun d hd => absurd hd (List.not_mem_nil d)) rfl rfl

theorem fStep2 : StepRel failWf fS1 fS2 :=
  .submit fS1 "xx" rfl rfl

theorem fStep3 : StepRel failWf fS2 fS3 :=
  .eligible fS2 "yy" ⟨"yy", [], [], []⟩ rfl rfl
    (fun d hd => absurd hd (List.not_mem_nil d)) rfl rfl

theorem fStep4 : StepRel failWf fS3 fS4 :=
  .submit fS3 "yy" rfl rfl

theorem fStep5 : StepRel failWf fS4 fS5 :=
  .completeFail fS4 "xx" rfl

theorem fStep6 : StepRel failWf fS5 fS6 :=
  .completeOk fS5 "yy" fOuts rfl

theorem fReach5 : Reachable failWf fS5 :=
  Relation.ReflTransGen.tail
    (Relation.ReflTransGen.tail
      (Relation.ReflTransGen.tail
        (Relation.ReflTransGen.tail
          (Relation.ReflTransGen.tail Relation.ReflTransGen.refl fStep1)
          fStep2)
        fStep3)
      fStep4)
    fStep5

/-- Witness for C8: step `xx` has failed while `yy` runs; the run is failed
after `yy` finishes, and `yy`'s normal completion is still enabled. -/
theorem failure_isolation_witness :
    fS6.failed = true
    ∧ StepRel failWf fS5 (completeState fS5 "yy" fOuts) :=
  ⟨(failure_isolation failWf fS5 fS6 fReach5
      (Relation.ReflTransGen.single fStep6)).2.1 rfl,
   (failure_isolation failWf fS5 fS5 fReach5
      Relation.ReflTransGen.refl).2.2.2 "yy" fOuts rfl⟩

/-- One run of the parametric branch workflow. -/
def runP (p q : Pred) (ex : Exec) (n : Int) : RunReport :=
  runWorkflow (compiledP p q) ex [("input_val", .int n)]

/-- The step was actually executed: it ran and finished. -/
def executedStatus (st : StepStatus) : Prop :=
  st = .succeeded ∨ st = .failed

/-- C1: for every run of the branch-point workflow
A → \x7bB under p, C under q\x7d whose two conditions partition the integer
domain of the compared output, and any executor under which A produces the
integer output, exactly one gated branch is executed (it runs to succeeded or
failed) and the step gated by the other sibling condition ends skipped. -/
theorem partition_conditions_one_branch (p q : Pred) (ex : Exec) (n : Int)
    (hpart : ∀ v : Int, p.evalInt v = true ↔ ¬ q.evalInt v = true)
    (hA : ex "func-a" [("input_value", .str (intToStr n))]
        = .ok [("first_func_res", .int n)]) :
    (executedStatus ((runP p q ex n).statusOf "func-b")
      ∧ (runP p q ex n).statusOf "func-c" = .skipped)
    ∨ ((runP p q ex n).statusOf "func-b" = .skipped
      ∧ executedStatus ((runP p q ex n).statusOf "func-c")) := by
  by_cases hp : p.evalInt n = true
  · left
    cases hb : ex "func-b" [] with
    | ok outs2 =>
      constructor
      · left
        simp [runP, runWorkflow, RunReport.statusOf, processOne, RunAcc.statusOf,
          compiledP, stepNamed, stepA, stepB, stepC, resolveInputs, resolveInput,
          valueToStr, List.lookup, afterSuccess, branchGroup, cndB, cndC,
          evalBranchPoint, selectBranch, condHolds, Pred.eval, hp, hA, hb,
          skippedSiblings, markSkipped, skipOne, RunAcc.setStatus,
          RunAcc.setResult, List.filter]
      · simp [runP, runWorkflow, RunReport.statusOf, processOne, RunAcc.statusOf,
          compiledP, stepNamed, stepA, stepB, stepC, resolveInputs, resolveInput,
          valueToStr, List.lookup, afterSuccess, branchGroup, cndB, cndC,
          evalBranchPoint, selectBranch, condHolds, Pred.eval, hp, hA, hb,
          skippedSiblings, markSkipped, skipOne, RunAcc.setStatus,
          RunAcc.setResult, List.filter]
    | error e =>
      constructor
      · right
        simp [runP, runWorkflow, RunReport.statusOf, processOne, RunAcc.statusOf,
          compiledP, stepNamed, stepA, stepB, stepC, resolveInputs, resolveInput,
          valueToStr, List.lookup, afterSuccess, branchGroup, cndB, cndC,
          evalBranchPoint, selectBranch, condHolds, Pred.eval, hp, hA, hb,
          skippedSiblings, markSkipped, skipOne, RunAcc.setStatus,
          RunAcc.setResult, List.filter]
      · simp [runP, runWorkflow, RunReport.statusOf, processOne, RunAcc.statusOf,
          compiledP, stepNamed, stepA, stepB, stepC, resolveInputs, resolveInput,
          valueToStr, List.lookup, afterSuccess, branchGroup, cndB, cndC,
          evalBranchPoint, selectBranch, condHolds, Pred.eval, hp, hA, hb,
          skippedSiblings, markSkipped, skipOne, RunAcc.setStatus,
          RunAcc.setResult, List.filter]
  · right
    have hq : q.evalInt n = true := by
      by_contra hq2
      exact hp ((hpart n).mpr hq2)
    have hp2 : p.evalInt n = false := by
      rcases Bool.eq_false_or_eq_true (p.evalInt n) with h1 | h1
      · exact absurd h1 hp
      · exact h1
    cases hc : ex "func-c" [] with
    | ok outs2 =>
      constructor
      · simp [runP, runWorkflow, RunReport.statusOf, processOne, RunAcc.statusOf,
          compiledP, stepNamed, stepA, stepB, stepC, resolveInputs, resolveInput,
          valueToStr, List.lookup, afterSuccess, branchGroup, cndB, cndC,
          evalBranchPoint, selectBranch, condHolds, Pred.eval, hp2, hq, hA, hc,
          skippedSiblings, markSkipped, skipOne, RunAcc.setStatus,
          RunAcc.setResult, List.filter]
      · left
        simp [runP, runWorkflow, RunReport.statusOf, processOne, RunAcc.statusOf,
          compiledP, stepNamed, stepA, stepB, stepC, resolveInputs, resolveInput,
          valueToStr, List.lookup, afterSuccess, branchGroup, cndB, cndC,
          evalBranchPoint, selectBranch, condHolds, Pred.eval, hp2, hq, hA, hc,
          skippedSiblings, markSkipped, skipOne, RunAcc.setStatus,
          RunAcc.setResult, List.filter]
    | error e =>
      constructor
      · simp [runP, runWorkflow, RunReport.statusOf, processOne, RunAcc.statusOf,
          compiledP, stepNamed, stepA, stepB, stepC, resolveInputs, resolveInput,
          valueToStr, List.lookup, afterSuccess, branchGroup, cndB, cndC,
          evalBranchPoint, selectBranch, condHolds, Pred.eval, hp2, hq, hA, hc,
          skippedSiblings, markSkipped, skipOne, RunAcc.setStatus,
          RunAcc.setResult, List.filter]
      · right
        simp [runP, runWorkflow, RunReport.statusOf, processOne, RunAcc.statusOf,
          compiledP, stepNamed, stepA, stepB, stepC, resolveInputs, resolveInput,
          valueToStr, List.lookup, afterSuccess, branchGroup, cndB, cndC,
          evalBranchPoint, selectBranch, condHolds, Pred.eval, hp2, hq, hA, hc,
          skippedSiblings, markSkipped, skipOne, RunAcc.setStatus,
          RunAcc.setResult, List.filter]

/-- Witness for C1: the notebook's pair `> 5` / `<= 5` with its executor at
input 6 — `func-b` executed, `func-c` skipped (or vice versa). -/
theorem partition_conditions_one_branch_witness :
    (executedStatus ((runP (.gt 5) (.le 5) notebookExec 6).statusOf "func-b")
      ∧ (runP (.gt 5) (.le 5) notebookExec 6).statusOf "func-c" = .skipped)
    ∨ ((runP (.gt 5) (.le 5) notebookExec 6).statusOf "func-b" = .skipped
      ∧ executedStatus ((runP (.gt 5) (.le 5) notebookExec 6).statusOf "func-c")) :=
  partition_conditions_one_branch (.gt 5) (.le 5) notebookExec 6
    (by
      intro v
      simp [Pred.evalInt])
    rfl

end Workflow
